import Mathlib

/-!
# Verification of the public-key exercise (`2_public_key_crypto/src/main.rs`)

Shallow embedding of the toy RSA implementation: primality testing,
modular exponentiation, modular multiplicative inverse, Carmichael's
totient, key generation, signing and verification.

Machine integers are embedded as `ℕ` (u32) and `ℤ` (i64).  For every
operation below, the in-range behaviour of the Rust code coincides with
the unbounded arithmetic used here; where the Rust code can panic
(`BigUint::modpow` with zero modulus, the `panic!` branch of `mmi`),
the embedding returns `Option`/`none`.

The randomized parts (`get_random_prime`, `generate_two_primes`,
`choose_private_exponent`, `generate_key_pair`) are embedded
relationally: a predicate characterises exactly the values the
rejection-sampling loop can return, namely the draws accepted by the
loop's filter.
-/

/-- Upper bound for generated primes (`const MAX_KEY_VAL: u32 = 65536`). -/
def MAX_KEY_VAL : ℕ := 65536

/-- The `while i * i <= n` trial-division loop of `is_prime`.  The Rust
loop variable is `i = 5, 11, 17, …`; we parametrise it as `i = 5 + 6 * k`
so that Lean sees a decreasing measure.  For the inputs the program uses
(`n < MAX_KEY_VAL`) the u32 products `i * i` never overflow, so plain `ℕ`
arithmetic is faithful. -/
def isPrimeLoop (n k : ℕ) : Bool :=
  if (5 + 6 * k) * (5 + 6 * k) ≤ n then
    if n % (5 + 6 * k) = 0 || n % (5 + 6 * k + 2) = 0 then false
    else isPrimeLoop n (k + 1)
  else true
termination_by n - k
decreasing_by
  have h5 : 5 + 6 * k ≤ (5 + 6 * k) * (5 + 6 * k) :=
    Nat.le_mul_of_pos_left _ (by omega)
  omega

/-- `fn is_prime(n: u32) -> bool`: the 6k±1 trial-division test. -/
def is_prime (n : ℕ) : Bool :=
  if n ≤ 3 then decide (1 < n)
  else if n % 2 = 0 || n % 3 = 0 then false
  else isPrimeLoop n 0

/-- `fn is_coprime(x: u32, y: u32) -> bool` (`num::integer::gcd(x, y) == 1`). -/
def is_coprime (x y : ℕ) : Bool := Nat.gcd x y == 1

/-- `fn carmichael_totient(x: u32, y: u32) -> u32`:
`num::integer::lcm(x - 1, y - 1)`.  The program only applies it to primes
`x, y ≥ 3`, where u32 subtraction agrees with `ℕ` subtraction. -/
def carmichael_totient (x y : ℕ) : ℕ := Nat.lcm (x - 1) (y - 1)

/-- The `while mn.1 != 0` loop of `fn mmi`.  In the source, `mn` and `xy`
are `i64` pairs; starting from u32 inputs every `mn` component stays a
nonnegative Euclidean remainder, so `mn` is embedded as a `ℕ` pair (i64
division and remainder on nonnegative operands are `ℕ` division and
remainder), while the Bezout accumulator `xy` genuinely needs sign and is
kept in `ℤ`.  All intermediate i64 values are bounded well below `2^63`
for u32 inputs, so unbounded arithmetic is faithful. -/
def mmiLoop (mn : ℕ × ℕ) (xy : ℤ × ℤ) : ℤ × ℤ :=
  if mn.2 = 0 then xy
  else mmiLoop (mn.2, mn.1 % mn.2) (xy.2, xy.1 - (↑(mn.1 / mn.2) : ℤ) * xy.2)
termination_by mn.2
decreasing_by
  exact Nat.mod_lt _ (Nat.pos_of_ne_zero (by assumption))

/-- The `while xy.0 < 0 { xy.0 += m }` normalization loop of `fn mmi`.
If `m = 0` and `x < 0` the Rust loop would not terminate; that state is
unreachable from `mmi` (with `m = 0` the main loop leaves `xy.0 ∈ {0, 1}`),
and the embedding returns `x` there so that the function is total. -/
def normalizeNeg (x : ℤ) (m : ℕ) : ℤ :=
  if x < 0 then
    if m = 0 then x
    else normalizeNeg (x + m) m
  else x
termination_by (-x).toNat
decreasing_by
  omega

/-- `fn mmi(a_unsigned: u32, m_unsigned: u32) -> u32`: extended-Euclid
modular inverse.  `none` models the `panic!("Received negative inverse")`
branch (taken when the normalized coefficient is not positive).  The
`as u32` cast on return is `Int.toNat` here; the returned value is
nonnegative and (for u32 inputs) below `2^32`, so the cast is exact. -/
def mmi (a_unsigned m_unsigned : ℕ) : Option ℕ :=
  let xy := mmiLoop (m_unsigned, a_unsigned) (0, 1)
  let x := normalizeNeg xy.1 m_unsigned
  if 0 < x then some x.toNat else none

/-- Binary modular exponentiation, embedding `BigUint::modpow` (which is
documented to compute `self^exponent mod modulus` and to panic on a zero
modulus; the zero-modulus case is excluded by the caller
`raise_power_modulo`). -/
def modPow (x y m : ℕ) : ℕ :=
  if y = 0 then 1 % m
  else
    let r := modPow (x * x % m) (y / 2) m
    if y % 2 = 1 then r * x % m else r
termination_by y
decreasing_by
  exact Nat.div_lt_self (Nat.pos_of_ne_zero (by assumption)) one_lt_two

/-- `fn raise_power_modulo(x: u32, y: u32, z: u32) -> u32`: converts to
`BigUint`, calls `modpow`, and narrows back with `.to_u32().unwrap()`.
`none` models the panic of `modpow` on a zero modulus; for `z ≥ 1` the
result is `< z`, so the narrowing `unwrap` always succeeds. -/
def raise_power_modulo (x y z : ℕ) : Option ℕ :=
  if z = 0 then none else some (modPow x y z)

/-- Relational embedding of `fn get_random_prime`: the rejection-sampling
loop draws `p = rng.gen_range(3, MAX_KEY_VAL)` (so `3 ≤ p < MAX_KEY_VAL`)
until `is_prime(p)`; the returned values are exactly those satisfying the
filter. -/
def GetRandomPrimeSpec (p : ℕ) : Prop :=
  3 ≤ p ∧ p < MAX_KEY_VAL ∧ is_prime p = true

/-- Relational embedding of `fn generate_two_primes`: two draws from
`get_random_prime`, retried until distinct. -/
def GenerateTwoPrimesSpec (p q : ℕ) : Prop :=
  GetRandomPrimeSpec p ∧ GetRandomPrimeSpec q ∧ p ≠ q

/-- Relational embedding of `fn choose_private_exponent`: draws
`p = rng.gen_range(2, c)` (so `2 ≤ p < c`) until `is_coprime(p, c)`. -/
def ChoosePrivateExponentSpec (c e : ℕ) : Prop :=
  2 ≤ e ∧ e < c ∧ is_coprime e c = true

/-- `fn compute_public_exponent(e: u32, n: u32) -> u32` is `mmi(e, n)`. -/
def compute_public_exponent (e n : ℕ) : Option ℕ := mmi e n

/-- Relational embedding of `fn generate_key_pair`: a triple `(m, e, d)`
is a possible return value iff there are sampled primes `p, q` with
`m = p * q`, `e` drawn by `choose_private_exponent` over the totient, and
`d` the (non-panicking) result of `compute_public_exponent`. -/
def GenerateKeyPairSpec (m e d : ℕ) : Prop :=
  ∃ p q, GenerateTwoPrimesSpec p q ∧ m = p * q ∧
    ChoosePrivateExponentSpec (carmichael_totient p q) e ∧
    compute_public_exponent e (carmichael_totient p q) = some d

/-- `fn sign_message(msg: String, priv_key_mod: u32, priv_key_exp: u32) -> u32`.
Modelled from the spec: the message-hashing collaborator `get_hash`
(std's `DefaultHasher`, external to this repository) is out of scope; the
spec requires only a deterministic fixed-width digest, so messages enter
the embedding through their 32-bit digest `h = get_hash(&msg)`. -/
def sign_message (h priv_key_mod priv_key_exp : ℕ) : Option ℕ :=
  raise_power_modulo h priv_key_exp priv_key_mod

/-- `fn verify_signature(msg: String, sig: u32, pub_key_mod: u32, pub_key_exp: u32) -> bool`,
over the message digest `h` (see `sign_message` for the hash
abstraction).  Computes `r = raise_power_modulo(sig, pub_key_exp,
pub_key_mod)` and returns `r == h % pub_key_mod`; `none` propagates the
zero-modulus panic of `raise_power_modulo`. -/
def verify_signature (h sig pub_key_mod pub_key_exp : ℕ) : Option Bool :=
  match raise_power_modulo sig pub_key_exp pub_key_mod with
  | none => none
  | some r => some (r == h % pub_key_mod)

/-! ## Modular exponentiation -/

theorem modPow_eq (y : ℕ) : ∀ x m : ℕ, m ≠ 0 → modPow x y m = x ^ y % m := by
  induction y using Nat.strong_induction_on with
  | _ y ih =>
    intro x m hm
    rw [modPow]
    by_cases hy : y = 0
    · simp [hy]
    · simp only [if_neg hy]
      have hlt : y / 2 < y := Nat.div_lt_self (Nat.pos_of_ne_zero hy) one_lt_two
      have hr : modPow (x * x % m) (y / 2) m = (x * x % m) ^ (y / 2) % m :=
        ih _ hlt _ _ hm
      have hsq : (x * x % m) ^ (y / 2) % m = x ^ (2 * (y / 2)) % m := by
        rw [← Nat.pow_mod, ← sq, ← pow_mul]
      by_cases hodd : y % 2 = 1
      · have hy2 : y = 2 * (y / 2) + 1 := by omega
        simp only [if_pos hodd, hr, hsq]
        calc x ^ (2 * (y / 2)) % m * x % m
            = x ^ (2 * (y / 2)) * x % m := by rw [Nat.mod_mul_mod]
          _ = x ^ y % m := by rw [← pow_succ, ← hy2]
      · have hy2 : y = 2 * (y / 2) := by omega
        simp only [if_neg hodd, hr, hsq, ← hy2]

theorem raise_power_modulo_eq (x y z : ℕ) (hz : z ≠ 0) :
    raise_power_modulo x y z = some (x ^ y % z) := by
  rw [raise_power_modulo, if_neg hz, modPow_eq _ _ _ hz]

/-! ## Correctness of the trial-division primality test -/

theorem isPrimeLoop_false {n k : ℕ} (h : isPrimeLoop n k = false) :
    ∃ d, 1 < d ∧ d < n ∧ d ∣ n := by
  induction k using isPrimeLoop.induct n with
  | case1 k hsq hdvd =>
    rcases (Bool.or_eq_true _ _).mp hdvd with hd | hd
    · refine ⟨5 + 6 * k, by omega, ?_, Nat.dvd_of_mod_eq_zero (of_decide_eq_true hd)⟩
      nlinarith [hsq]
    · refine ⟨5 + 6 * k + 2, by omega, ?_, Nat.dvd_of_mod_eq_zero (of_decide_eq_true hd)⟩
      nlinarith [hsq]
  | case2 k hsq hdvd ih =>
    rw [isPrimeLoop, if_pos hsq, if_neg hdvd] at h
    exact ih h
  | case3 k hsq =>
    rw [isPrimeLoop, if_neg hsq] at h
    exact absurd h (by simp)

theorem isPrimeLoop_true {n k : ℕ} (h : isPrimeLoop n k = true) :
    ∀ j, k ≤ j → (5 + 6 * j) * (5 + 6 * j) ≤ n →
      n % (5 + 6 * j) ≠ 0 ∧ n % (5 + 6 * j + 2) ≠ 0 := by
  induction k using isPrimeLoop.induct n with
  | case1 k hsq hdvd =>
    rw [isPrimeLoop, if_pos hsq, if_pos hdvd] at h
    exact absurd h (by simp)
  | case2 k hsq hdvd ih =>
    intro j hkj hj
    rcases Nat.eq_or_lt_of_le hkj with rfl | hkj
    · simp only [Bool.or_eq_true, decide_eq_true_eq, not_or] at hdvd
      exact hdvd
    · rw [isPrimeLoop, if_pos hsq, if_neg hdvd] at h
      exact ih h j (by omega) hj
  | case3 k hsq =>
    intro j hkj hj
    have hmono : (5 + 6 * k) * (5 + 6 * k) ≤ (5 + 6 * j) * (5 + 6 * j) := by
      have : 5 + 6 * k ≤ 5 + 6 * j := by omega
      exact Nat.mul_le_mul this this
    omega

theorem is_prime_iff (n : ℕ) : is_prime n = true ↔ Nat.Prime n := by
  constructor
  · intro h
    rw [is_prime] at h
    by_cases hn3 : n ≤ 3
    · rw [if_pos hn3, decide_eq_true_eq] at h
      interval_cases n <;> first | exact absurd h (by omega) | norm_num
    · rw [if_neg hn3] at h
      by_cases hdvd : n % 2 = 0 || n % 3 = 0
      · rw [if_pos hdvd] at h; exact absurd h (by simp)
      rw [if_neg hdvd] at h
      simp only [Bool.or_eq_true, decide_eq_true_eq, not_or] at hdvd
      obtain ⟨hd2, hd3⟩ := hdvd
      by_contra hnp
      set p := n.minFac with hp
      have hpp : Nat.Prime p := Nat.minFac_prime (by omega)
      have hpd : p ∣ n := Nat.minFac_dvd n
      have hnp0 : n % p = 0 := by
        obtain ⟨c, hc⟩ := hpd
        rw [hc]; exact Nat.mul_mod_right p c
      have hpsq : p * p ≤ n := by
        have := Nat.minFac_sq_le_self (by omega : 0 < n) hnp
        nlinarith [this]
      have hp2 : p ≠ 2 := by
        rintro h2; rw [h2] at hnp0; omega
      have hp3 : p ≠ 3 := by
        rintro h3; rw [h3] at hnp0; omega
      have hp4 : p ≠ 4 := by
        rintro h4; rw [h4] at hpp; norm_num at hpp
      have hp5 : 5 ≤ p := by have := hpp.two_le; omega
      have hpodd : p % 2 = 1 := Nat.odd_iff.mp (hpp.odd_of_ne_two hp2)
      have hpmod3 : p % 3 ≠ 0 := by
        intro hc
        have := Nat.Prime.eq_one_or_self_of_dvd hpp 3 (Nat.dvd_of_mod_eq_zero hc)
        omega
      have hp6 : p % 6 = 1 ∨ p % 6 = 5 := by omega
      rcases hp6 with h6 | h6
      · obtain ⟨j, hj⟩ : ∃ j, p = 5 + 6 * j + 2 := ⟨(p - 7) / 6, by omega⟩
        have hle : 5 + 6 * j ≤ p := by omega
        have := (isPrimeLoop_true h j (Nat.zero_le j) (by nlinarith)).2
        exact this (by rw [← hj]; exact hnp0)
      · obtain ⟨j, hj⟩ : ∃ j, p = 5 + 6 * j := ⟨(p - 5) / 6, by omega⟩
        have := (isPrimeLoop_true h j (Nat.zero_le j) (by nlinarith)).1
        exact this (by rw [← hj]; exact hnp0)
  · intro hn
    rw [is_prime]
    by_cases hn3 : n ≤ 3
    · rw [if_pos hn3, decide_eq_true_eq]
      exact hn.one_lt
    · rw [if_neg hn3]
      have h2 : n % 2 ≠ 0 := fun hc =>
        by have := (Nat.Prime.eq_one_or_self_of_dvd hn 2 (Nat.dvd_of_mod_eq_zero hc)); omega
      have h3 : n % 3 ≠ 0 := fun hc =>
        by have := (Nat.Prime.eq_one_or_self_of_dvd hn 3 (Nat.dvd_of_mod_eq_zero hc)); omega
      rw [if_neg (by simp [h2, h3])]
      by_contra hloop
      obtain ⟨d, hd1, hdn, hddvd⟩ :=
        isPrimeLoop_false (Bool.not_eq_true _ ▸ hloop : isPrimeLoop n 0 = false)
      have := hn.eq_one_or_self_of_dvd d hddvd
      omega

/-! ## Correctness of `mmi` (extended Euclid) -/

/-- Proof artifact (not from the source): the Bezout coefficient pair of
the recursive extended Euclidean algorithm.  `mmiLoop` is its
tail-recursive accumulator form (`mmiLoop_eq_egcdT`). -/
def egcdT (r₀ r₁ : ℕ) : ℤ × ℤ :=
  if r₁ = 0 then (1, 0)
  else
    let uv := egcdT r₁ (r₀ % r₁)
    (uv.2, uv.1 - (↑(r₀ / r₁) : ℤ) * uv.2)
termination_by r₁
decreasing_by
  exact Nat.mod_lt _ (Nat.pos_of_ne_zero (by assumption))

theorem egcdT_bezout (r₁ : ℕ) : ∀ r₀ : ℕ,
    (egcdT r₀ r₁).1 * r₀ + (egcdT r₀ r₁).2 * r₁ = (Nat.gcd r₀ r₁ : ℤ) := by
  induction r₁ using Nat.strong_induction_on with
  | _ r₁ ih =>
    intro r₀
    rw [egcdT]
    by_cases h1 : r₁ = 0
    · subst h1; simp
    · simp only [if_neg h1]
      have hlt : r₀ % r₁ < r₁ := Nat.mod_lt _ (Nat.pos_of_ne_zero h1)
      have IH := ih (r₀ % r₁) hlt r₁
      have hmod : ((r₀ % r₁ : ℕ) : ℤ) + (r₁ : ℤ) * ((r₀ / r₁ : ℕ) : ℤ) = (r₀ : ℤ) := by
        exact_mod_cast congrArg (fun t : ℕ => (t : ℤ)) (Nat.mod_add_div r₀ r₁)
      have hg : Nat.gcd r₀ r₁ = Nat.gcd r₁ (r₀ % r₁) := by
        rw [Nat.gcd_comm r₀ r₁, Nat.gcd_rec r₁ r₀, Nat.gcd_comm (r₀ % r₁) r₁]
      rw [hg, ← IH]
      linear_combination (-(egcdT r₁ (r₀ % r₁)).2) * hmod

theorem egcdT_step {r₀ r₁ : ℕ} (h1 : r₁ ≠ 0) :
    egcdT r₀ r₁ = ((egcdT r₁ (r₀ % r₁)).2,
      (egcdT r₁ (r₀ % r₁)).1 - (↑(r₀ / r₁) : ℤ) * (egcdT r₁ (r₀ % r₁)).2) := by
  rw [egcdT, if_neg h1]

theorem egcdT_bound (r₁ : ℕ) : ∀ r₀ : ℕ,
    (egcdT r₀ r₁).1.natAbs ≤ max r₁ 1 ∧ (egcdT r₀ r₁).2.natAbs ≤ max r₀ 1 := by
  induction r₁ using Nat.strong_induction_on with
  | _ r₁ ih =>
    intro r₀
    by_cases h1 : r₁ = 0
    · subst h1; rw [egcdT]; simp
    · rw [egcdT_step h1]
      by_cases h2 : r₀ % r₁ = 0
      · rw [h2, show egcdT r₁ 0 = (1, 0) from by rw [egcdT]; simp]
        refine ⟨by simp, ?_⟩
        simp
      · have hlt : r₀ % r₁ < r₁ := Nat.mod_lt _ (Nat.pos_of_ne_zero h1)
        obtain ⟨hu, hv⟩ := ih (r₀ % r₁) hlt r₁
        rw [max_eq_left (by omega : 1 ≤ r₀ % r₁)] at hu
        rw [max_eq_left (by omega : 1 ≤ r₁)] at hv
        refine ⟨le_trans hv (le_max_left _ _), ?_⟩
        have htri : ((egcdT r₁ (r₀ % r₁)).1 -
            (↑(r₀ / r₁) : ℤ) * (egcdT r₁ (r₀ % r₁)).2).natAbs ≤
            (egcdT r₁ (r₀ % r₁)).1.natAbs +
            r₀ / r₁ * (egcdT r₁ (r₀ % r₁)).2.natAbs := by
          refine le_trans (Int.natAbs_sub_le _ _) (le_of_eq ?_)
          rw [Int.natAbs_mul, Int.natAbs_ofNat]
        have hmul : r₀ / r₁ * (egcdT r₁ (r₀ % r₁)).2.natAbs ≤ r₀ / r₁ * r₁ :=
          Nat.mul_le_mul_left _ hv
        have hq : r₀ % r₁ + r₀ / r₁ * r₁ = r₀ := Nat.mod_add_div' r₀ r₁
        refine le_trans htri (le_trans ?_ (le_max_left _ _))
        omega

theorem mmiLoop_eq_egcdT (r₁ : ℕ) : ∀ r₀ : ℕ, ∀ t₀ t₁ : ℤ,
    (mmiLoop (r₀, r₁) (t₀, t₁)).1 =
      t₀ * (egcdT r₀ r₁).1 + t₁ * (egcdT r₀ r₁).2 := by
  induction r₁ using Nat.strong_induction_on with
  | _ r₁ ih =>
    intro r₀ t₀ t₁
    rw [mmiLoop, egcdT]
    by_cases h1 : r₁ = 0
    · subst h1; simp
    · simp only [if_neg h1]
      have hlt : r₀ % r₁ < r₁ := Nat.mod_lt _ (Nat.pos_of_ne_zero h1)
      rw [ih (r₀ % r₁) hlt r₁ t₁ (t₀ - (↑(r₀ / r₁) : ℤ) * t₁)]
      ring

theorem normalizeNeg_of_nonneg {x : ℤ} (m : ℕ) (hx : 0 ≤ x) :
    normalizeNeg x m = x := by
  rw [normalizeNeg, if_neg (by omega)]

theorem normalizeNeg_of_neg {x : ℤ} {m : ℕ} (hx : x < 0) (hm : m ≠ 0) :
    normalizeNeg x m = normalizeNeg (x + m) m := by
  rw [normalizeNeg, if_pos hx, if_neg hm]

/-- Full functional correctness of `mmi` on coprime inputs with `m ≥ 2`:
no panic, and the result is the inverse of `a` in `[1, m)`. -/
theorem mmi_spec {a m : ℕ} (hm : 2 ≤ m) (hc : Nat.gcd a m = 1) :
    ∃ r : ℕ, mmi a m = some r ∧ 0 < r ∧ r < m ∧ a * r % m = 1 := by
  have hbez := egcdT_bezout a m
  have hbnd := (egcdT_bound a m).2
  set u := (egcdT m a).1 with hu
  set v := (egcdT m a).2 with hv
  have hloop : (mmiLoop (m, a) (0, 1)).1 = v := by
    rw [mmiLoop_eq_egcdT a m 0 1]; ring
  have hgcd : Nat.gcd m a = 1 := by rw [Nat.gcd_comm]; exact hc
  have hbez1 : u * m + v * a = 1 := by rw [hbez, hgcd]; norm_num
  have hvbnd : v.natAbs ≤ m := le_trans hbnd (by omega)
  have hvm : v.natAbs ≠ m := by
    intro hvm
    have hdvd : (m : ℤ) ∣ 1 := by
      have hcases : v = (m : ℤ) ∨ v = -(m : ℤ) := by omega
      rcases hcases with h | h
      · exact ⟨u + a, by rw [← hbez1, h]; ring⟩
      · exact ⟨u - a, by rw [← hbez1, h]; ring⟩
    have := Int.le_of_dvd one_pos hdvd
    omega
  have hv0 : v ≠ 0 := by
    intro h0
    have hdvd : (m : ℤ) ∣ 1 := ⟨u, by rw [← hbez1, h0]; ring⟩
    have := Int.le_of_dvd one_pos hdvd
    omega
  have hmain : ∀ x : ℤ, 0 < x → x < m → a * x % (m : ℤ) = 1 →
      ∃ r : ℕ, (if 0 < x then some x.toNat else none) = some r ∧
        0 < r ∧ r < m ∧ a * r % m = 1 := by
    intro x hx0 hxm hmod
    refine ⟨x.toNat, by rw [if_pos hx0], by omega, by omega, ?_⟩
    have hcast : ((a * x.toNat % m : ℕ) : ℤ) = a * x % (m : ℤ) := by
      push_cast [Int.toNat_of_nonneg (le_of_lt hx0)]
      rfl
    omega
  have hmmi : mmi a m =
      if 0 < normalizeNeg v m then some (normalizeNeg v m).toNat else none := by
    rw [mmi, hloop]
  rcases lt_or_le v 0 with hneg | hpos
  · have hx : normalizeNeg v m = v + m := by
      rw [normalizeNeg_of_neg hneg (by omega),
        normalizeNeg_of_nonneg _ (by omega)]
    rw [hx] at hmmi
    have hmod : (a : ℤ) * (v + m) % (m : ℤ) = 1 := by
      have hrw : (a : ℤ) * (v + m) = 1 + (m : ℤ) * (a - u) := by
        linear_combination hbez1
      rw [hrw, Int.add_mul_emod_self_left,
        Int.emod_eq_of_lt (by norm_num) (by omega)]
    obtain ⟨r, hr, h1, h2, h3⟩ := hmain (v + m) (by omega) (by omega) hmod
    exact ⟨r, by rw [hmmi]; exact hr, h1, h2, h3⟩
  · have hvpos : 0 < v := lt_of_le_of_ne hpos (Ne.symm hv0)
    have hx : normalizeNeg v m = v := normalizeNeg_of_nonneg _ hpos
    rw [hx] at hmmi
    have hmod : (a : ℤ) * v % (m : ℤ) = 1 := by
      have hrw : (a : ℤ) * v = 1 + (m : ℤ) * (-u) := by
        linear_combination hbez1
      rw [hrw, Int.add_mul_emod_self_left,
        Int.emod_eq_of_lt (by norm_num) (by omega)]
    obtain ⟨r, hr, h1, h2, h3⟩ := hmain v hvpos (by omega) hmod
    exact ⟨r, by rw [hmmi]; exact hr, h1, h2, h3⟩

/-! ## Key-pair facts and the RSA round trip -/

theorem GetRandomPrimeSpec_prime {p : ℕ} (hp : GetRandomPrimeSpec p) :
    Nat.Prime p ∧ 3 ≤ p ∧ p < 65536 := by
  obtain ⟨h3, hlt, hpr⟩ := hp
  exact ⟨(is_prime_iff p).mp hpr, h3, hlt⟩

theorem totient_facts {p q : ℕ} (h : GenerateTwoPrimesSpec p q) :
    2 ∣ carmichael_totient p q ∧ 4 ≤ carmichael_totient p q ∧
      (p - 1) ∣ carmichael_totient p q ∧ (q - 1) ∣ carmichael_totient p q := by
  obtain ⟨hp, hq, hne⟩ := h
  obtain ⟨hpp, hp3, _⟩ := GetRandomPrimeSpec_prime hp
  obtain ⟨hqp, hq3, _⟩ := GetRandomPrimeSpec_prime hq
  have hpodd : p % 2 = 1 := Nat.odd_iff.mp (hpp.odd_of_ne_two (by omega))
  have hqodd : q % 2 = 1 := Nat.odd_iff.mp (hqp.odd_of_ne_two (by omega))
  have hd1 : (p - 1) ∣ carmichael_totient p q := Nat.dvd_lcm_left _ _
  have hd2 : (q - 1) ∣ carmichael_totient p q := Nat.dvd_lcm_right _ _
  have h2p : 2 ∣ p - 1 := by omega
  have htpos : carmichael_totient p q ≠ 0 :=
    Nat.lcm_ne_zero (by omega) (by omega)
  have hle1 : p - 1 ≤ carmichael_totient p q :=
    Nat.le_of_dvd (Nat.pos_of_ne_zero htpos) hd1
  have hle2 : q - 1 ≤ carmichael_totient p q :=
    Nat.le_of_dvd (Nat.pos_of_ne_zero htpos) hd2
  refine ⟨dvd_trans h2p hd1, ?_, hd1, hd2⟩
  omega

theorem keypair_parts {p q e d : ℕ} (hpq : GenerateTwoPrimesSpec p q)
    (he : ChoosePrivateExponentSpec (carmichael_totient p q) e)
    (hd : compute_public_exponent e (carmichael_totient p q) = some d) :
    Nat.Prime p ∧ Nat.Prime q ∧ 3 ≤ p ∧ p < 65536 ∧ 3 ≤ q ∧ q < 65536 ∧
      p ≠ q ∧ 2 ≤ e ∧ e < carmichael_totient p q ∧
      Nat.gcd e (carmichael_totient p q) = 1 ∧
      0 < d ∧ d < carmichael_totient p q ∧
      e * d % carmichael_totient p q = 1 := by
  obtain ⟨he2, helt, hecop⟩ := he
  obtain ⟨hpp, hp3, hplt⟩ := GetRandomPrimeSpec_prime hpq.1
  obtain ⟨hqp, hq3, hqlt⟩ := GetRandomPrimeSpec_prime hpq.2.1
  have hgcd : Nat.gcd e (carmichael_totient p q) = 1 := by
    have := hecop
    rwa [is_coprime, beq_iff_eq] at this
  have ht4 : 4 ≤ carmichael_totient p q := (totient_facts hpq).2.1
  obtain ⟨r, hr, hr0, hrlt, hrmod⟩ := mmi_spec (by omega) hgcd
  have hdr : d = r := by
    rw [compute_public_exponent, hr] at hd
    exact (Option.some_injective _ hd).symm
  subst hdr
  exact ⟨hpp, hqp, hp3, hplt, hq3, hqlt, hpq.2.2, he2, helt, hgcd,
    hr0, hrlt, hrmod⟩

theorem pow_totient_prime {p L : ℕ} (hp : Nat.Prime p) (hL : (p - 1) ∣ L)
    (k h : ℕ) : h ^ (k * L + 1) ≡ h [MOD p] := by
  by_cases hdvd : p ∣ h
  · have h1 : h ≡ 0 [MOD p] := (Nat.modEq_zero_iff_dvd).mpr hdvd
    have h2 : h ^ (k * L + 1) ≡ 0 [MOD p] :=
      (Nat.modEq_zero_iff_dvd).mpr (dvd_pow hdvd (by omega))
    exact h2.trans h1.symm
  · have hcop : Nat.Coprime h p :=
      Nat.Coprime.symm ((Nat.Prime.coprime_iff_not_dvd hp).mpr hdvd)
    have heuler : h ^ (p - 1) ≡ 1 [MOD p] := by
      have := Nat.ModEq.pow_totient hcop
      rwa [Nat.totient_prime hp] at this
    obtain ⟨c, hc⟩ := hL
    calc h ^ (k * L + 1) = (h ^ (p - 1)) ^ (c * k) * h := by
          rw [← pow_mul, ← pow_succ]
          congr 1
          rw [hc]; ring
      _ ≡ 1 ^ (c * k) * h [MOD p] := Nat.ModEq.mul_right h (heuler.pow _)
      _ = h := by rw [one_pow, one_mul]

/-- RSA core: for a squarefree modulus `p * q` and exponents with
`e * d ≡ 1` modulo a common multiple `L` of `p - 1` and `q - 1`,
exponentiation by `e * d` is the identity on every residue. -/
theorem pow_ed_mod {p q L e d : ℕ} (hp : Nat.Prime p) (hq : Nat.Prime q)
    (hne : p ≠ q) (hdp : (p - 1) ∣ L) (hdq : (q - 1) ∣ L)
    (hed : e * d % L = 1) (h : ℕ) : h ^ (e * d) ≡ h [MOD p * q] := by
  have hsplit : e * d = e * d / L * L + 1 := by
    rcases Nat.eq_zero_or_pos L with rfl | hL
    · simpa using hed
    · have h2 := Nat.div_add_mod' (e * d) L
      omega
  have h1 : h ^ (e * d) ≡ h [MOD p] := by
    rw [hsplit]; exact pow_totient_prime hp hdp _ h
  have h2 : h ^ (e * d) ≡ h [MOD q] := by
    rw [hsplit]; exact pow_totient_prime hq hdq _ h
  have hcop : Nat.Coprime p q := (Nat.coprime_primes hp hq).mpr hne
  exact (Nat.modEq_and_modEq_iff_modEq_mul hcop).mp ⟨h1, h2⟩

/-! ## Concrete witnesses for the relational generator spec -/

theorem twoPrimesSpec_3_5 : GenerateTwoPrimesSpec 3 5 := by
  refine ⟨⟨by norm_num, by norm_num [MAX_KEY_VAL], by simp [is_prime]⟩,
    ⟨by norm_num, by norm_num [MAX_KEY_VAL], by simp [is_prime, isPrimeLoop]⟩,
    by norm_num⟩

theorem exponentSpec_4_3 : ChoosePrivateExponentSpec (carmichael_totient 3 5) 3 := by
  have h : carmichael_totient 3 5 = 4 := rfl
  rw [h]
  exact ⟨by norm_num, by norm_num, rfl⟩

theorem publicExponent_3_4 :
    compute_public_exponent 3 (carmichael_totient 3 5) = some 3 := by
  have h : carmichael_totient 3 5 = 4 := rfl
  rw [h]
  simp [compute_public_exponent, mmi, mmiLoop, normalizeNeg]

theorem keyPairSpec_15_3_3 : GenerateKeyPairSpec 15 3 3 :=
  ⟨3, 5, twoPrimesSpec_3_5, by norm_num, exponentSpec_4_3, publicExponent_3_4⟩

/-! ## Claim theorems -/

/-- C1: for every key pair `(m, e, d)` returned by `generate_key_pair` and
every 32-bit digest `h`, the sign-then-verify exponentiations round-trip:
`raise_power_modulo (raise_power_modulo h e m) d m = h % m`. -/
theorem C1_round_trip {m e d : ℕ} (hkp : GenerateKeyPairSpec m e d)
    (h : ℕ) (_hh : h < 2 ^ 32) :
    ∃ s, raise_power_modulo h e m = some s ∧
      raise_power_modulo s d m = some (h % m) := by
  obtain ⟨p, q, hpq, hm, he, hd⟩ := hkp
  obtain ⟨hpp, hqp, hp3, hplt, hq3, hqlt, hne, he2, helt, hgcd, hd0, hdlt, hed⟩ :=
    keypair_parts hpq he hd
  obtain ⟨_, _, hdp, hdq⟩ := totient_facts hpq
  have hm0 : m ≠ 0 := by
    rw [hm]; exact Nat.mul_ne_zero (by omega) (by omega)
  refine ⟨h ^ e % m, raise_power_modulo_eq _ _ _ hm0, ?_⟩
  rw [raise_power_modulo_eq _ _ _ hm0]
  congr 1
  rw [← Nat.pow_mod, ← pow_mul, hm]
  exact pow_ed_mod hpp hqp hne hdp hdq hed h

theorem C1_round_trip_witness :
    GenerateKeyPairSpec 15 3 3 ∧ (7 : ℕ) < 2 ^ 32 ∧
    ∃ s, raise_power_modulo 7 3 15 = some s ∧
      raise_power_modulo s 3 15 = some (7 % 15) :=
  ⟨keyPairSpec_15_3_3, by norm_num,
    C1_round_trip keyPairSpec_15_3_3 7 (by norm_num)⟩

/-- C2: for every run of `generate_key_pair`, with `t` the Carmichael
totient of the two sampled primes, the chosen signing exponent `e` and the
derived verifying exponent `d = mmi e t` satisfy `e * d % t = 1`. -/
theorem C2_inverse_law {p q e d : ℕ} (hpq : GenerateTwoPrimesSpec p q)
    (he : ChoosePrivateExponentSpec (carmichael_totient p q) e)
    (hd : compute_public_exponent e (carmichael_totient p q) = some d) :
    e * d % carmichael_totient p q = 1 :=
  (keypair_parts hpq he hd).2.2.2.2.2.2.2.2.2.2.2.2

theorem C2_inverse_law_witness :
    3 * 3 % carmichael_totient 3 5 = 1 :=
  C2_inverse_law twoPrimesSpec_3_5 exponentSpec_4_3 publicExponent_3_4

/-- C3: every triple `(m, e, d)` returned by `generate_key_pair` is
well-formed: distinct primes accepted by `is_prime` and below
`MAX_KEY_VAL`, exact product `m = p * q` fitting in a u32, and exponents
strictly between 1 and the totient with `e` coprime to the totient. -/
theorem C3_well_formed {m e d : ℕ} (hkp : GenerateKeyPairSpec m e d) :
    ∃ p q, p ≠ q ∧ is_prime p = true ∧ is_prime q = true ∧
      p < MAX_KEY_VAL ∧ q < MAX_KEY_VAL ∧ m = p * q ∧ p * q < 2 ^ 32 ∧
      1 < e ∧ e < carmichael_totient p q ∧
      Nat.gcd e (carmichael_totient p q) = 1 ∧
      1 < d ∧ d < carmichael_totient p q := by
  obtain ⟨p, q, hpq, hm, he, hd⟩ := hkp
  obtain ⟨hpp, hqp, hp3, hplt, hq3, hqlt, hne, he2, helt, hgcd, hd0, hdlt, hed⟩ :=
    keypair_parts hpq he hd
  have hd1 : d ≠ 1 := by
    rintro rfl
    rw [mul_one, Nat.mod_eq_of_lt helt] at hed
    omega
  have hsq : p * q < 2 ^ 32 := by
    calc p * q < 65536 * 65536 := Nat.mul_lt_mul_of_lt_of_lt hplt hqlt
      _ = 2 ^ 32 := by norm_num
  exact ⟨p, q, hne, hpq.1.2.2, hpq.2.1.2.2,
    hplt, hqlt, hm, hsq, by omega, helt, hgcd, by omega, hdlt⟩

theorem C3_well_formed_witness :
    ∃ p q, p ≠ q ∧ is_prime p = true ∧ is_prime q = true ∧
      p < MAX_KEY_VAL ∧ q < MAX_KEY_VAL ∧ (15 : ℕ) = p * q ∧ p * q < 2 ^ 32 ∧
      1 < 3 ∧ 3 < carmichael_totient p q ∧
      Nat.gcd 3 (carmichael_totient p q) = 1 ∧
      1 < 3 ∧ 3 < carmichael_totient p q :=
  C3_well_formed keyPairSpec_15_3_3

/-- C10: for the two sampled primes of any run, the totient
`lcm (p-1) (q-1)` is even and at least 4; the subtractions `p - 1`,
`q - 1` stay at least 2 (no underflow), the exponent-sampling range
`(2, totient)` is non-empty, and `mmi` is invoked with modulus `> 2`. -/
theorem C10_totient_invariants {p q : ℕ} (hpq : GenerateTwoPrimesSpec p q) :
    3 ≤ p ∧ p < MAX_KEY_VAL ∧ 3 ≤ q ∧ q < MAX_KEY_VAL ∧
      2 ≤ p - 1 ∧ 2 ≤ q - 1 ∧
      2 ∣ carmichael_totient p q ∧ 4 ≤ carmichael_totient p q ∧
      2 < carmichael_totient p q := by
  obtain ⟨heven, h4, _, _⟩ := totient_facts hpq
  obtain ⟨_, hp3, hplt⟩ := GetRandomPrimeSpec_prime hpq.1
  obtain ⟨_, hq3, hqlt⟩ := GetRandomPrimeSpec_prime hpq.2.1
  refine ⟨hp3, ?_, hq3, ?_, by omega, by omega, heven, h4, by omega⟩
  · rw [MAX_KEY_VAL]; omega
  · rw [MAX_KEY_VAL]; omega

theorem C10_totient_invariants_witness :
    3 ≤ 3 ∧ 3 < MAX_KEY_VAL ∧ 3 ≤ 5 ∧ 5 < MAX_KEY_VAL ∧
      2 ≤ 3 - 1 ∧ 2 ≤ 5 - 1 ∧
      2 ∣ carmichael_totient 3 5 ∧ 4 ≤ carmichael_totient 3 5 ∧
      2 < carmichael_totient 3 5 :=
  C10_totient_invariants twoPrimesSpec_3_5


/-- C4: for u32 `x`, `y` and any modulus `z ≥ 1`, `raise_power_modulo`
returns exactly `x ^ y % z` with no overflow and no narrowing failure;
in particular `0` when `z = 1` and `1 % z` when `y = 0`. -/
theorem C4_raise_power_modulo_exact (x y z : ℕ) (_hx : x < 2 ^ 32)
    (_hy : y < 2 ^ 32) (hz : 1 ≤ z) :
    raise_power_modulo x y z = some (x ^ y % z) ∧
      (z = 1 → raise_power_modulo x y z = some 0) ∧
      (y = 0 → raise_power_modulo x y z = some (1 % z)) := by
  have h1 := raise_power_modulo_eq x y z (by omega)
  refine ⟨h1, ?_, ?_⟩
  · rintro rfl; rw [h1, Nat.mod_one]
  · rintro rfl; rw [h1, pow_zero]

theorem C4_raise_power_modulo_exact_witness :
    raise_power_modulo 7 3 15 = some 13 := by
  have h := (C4_raise_power_modulo_exact 7 3 15 (by norm_num) (by norm_num)
    (by norm_num)).1
  rw [h]; norm_num

/-- C5 counterexample: `a = 0`, `m = 1` are u32 values with
`gcd(a, m) = 1`, yet `mmi` reaches the `panic!("Received negative
inverse")` branch (the normalized Bezout coefficient is `0`, not
positive), so the panic is not unreachable under the claimed
precondition. -/
theorem C5_counterexample :
    Nat.gcd 0 1 = 1 ∧ (0 : ℕ) < 2 ^ 32 ∧ (1 : ℕ) < 2 ^ 32 ∧
      mmi 0 1 = none := by
  refine ⟨rfl, by norm_num, by norm_num, ?_⟩
  simp [mmi, mmiLoop, normalizeNeg]

/-- C5 (amended): for u32 `a`, `m` with `gcd(a, m) = 1` and `m ≥ 2`,
`mmi` does not reach the panic branch and returns `r` with `0 ≤ r < m`
and `a * r % m = 1`. -/
theorem C5_mmi_correct {a m : ℕ} (_ha : a < 2 ^ 32) (_hm32 : m < 2 ^ 32)
    (hm : 2 ≤ m) (hc : Nat.gcd a m = 1) :
    ∃ r, mmi a m = some r ∧ 0 < r ∧ r < m ∧ a * r % m = 1 :=
  mmi_spec hm hc

theorem C5_mmi_correct_witness :
    ∃ r, mmi 3 4 = some r ∧ 0 < r ∧ r < 4 ∧ 3 * r % 4 = 1 :=
  C5_mmi_correct (by norm_num) (by norm_num) (by norm_num) (by norm_num)

/-- C6: for every `n` below `MAX_KEY_VAL`, `is_prime n` returns `true`
iff `n` is a prime number. -/
theorem C6_is_prime_correct (n : ℕ) (_hn : n < MAX_KEY_VAL) :
    is_prime n = true ↔ Nat.Prime n :=
  is_prime_iff n

theorem C6_is_prime_correct_witness :
    (is_prime 5 = true ∧ is_prime 1223 = true) ∧
      (is_prime 6 = false ∧ is_prime 1000 = false) := by
  have h5 := (C6_is_prime_correct 5 (by norm_num [MAX_KEY_VAL])).mpr
    (by norm_num)
  have h1223 := (C6_is_prime_correct 1223 (by norm_num [MAX_KEY_VAL])).mpr
    (by norm_num)
  have h6 : is_prime 6 = false :=
    Bool.eq_false_iff.mpr (fun hc => (by norm_num : ¬ Nat.Prime 6)
      ((C6_is_prime_correct 6 (by norm_num [MAX_KEY_VAL])).mp hc))
  have h1000 : is_prime 1000 = false :=
    Bool.eq_false_iff.mpr (fun hc => (by norm_num : ¬ Nat.Prime 1000)
      ((C6_is_prime_correct 1000 (by norm_num [MAX_KEY_VAL])).mp hc))
  exact ⟨⟨h5, h1223⟩, h6, h1000⟩

theorem pow_self_mod (m e : ℕ) (he : e ≠ 0) : m ^ e % m = 0 := by
  rw [Nat.pow_mod, Nat.mod_self, zero_pow he, Nat.zero_mod]

/-- Evaluated form of `verify_signature` for a nonzero modulus. -/
theorem verify_signature_eq (h sig km ke : ℕ) (hm : km ≠ 0) :
    verify_signature h sig km ke = some (sig ^ ke % km == h % km) := by
  rw [verify_signature, raise_power_modulo_eq _ _ _ hm]

/-- C8 counterexample: with modulus 0 (a u32 value), `raise_power_modulo`
panics inside `BigUint::modpow`, so `verify_signature` does not return a
verdict. -/
theorem C8_counterexample : verify_signature 0 0 0 0 = none := rfl

/-- C8 (amended): for every digest, signature value and exponent, and
every modulus ≥ 1, verification completes with a Boolean verdict; a
mismatch yields `false`, never a failure. -/
theorem C8_verify_total (h sig km ke : ℕ) (hm : 1 ≤ km) :
    ∃ b : Bool, verify_signature h sig km ke = some b :=
  ⟨_, verify_signature_eq h sig km ke (by omega)⟩

theorem C8_verify_total_witness :
    ∃ b : Bool, verify_signature 0 0 1 0 = some b :=
  C8_verify_total 0 0 1 0 (by norm_num)

/-- C9: the verdict of `verify_signature` depends on the signature only
through its residue modulo the modulus. -/
theorem C9_verify_residue (h e m s1 s2 : ℕ) (hm : 1 ≤ m)
    (_h1 : s1 < 2 ^ 32) (_h2 : s2 < 2 ^ 32) (hcong : s1 % m = s2 % m) :
    verify_signature h s1 m e = verify_signature h s2 m e := by
  rw [verify_signature_eq _ _ _ _ (by omega),
    verify_signature_eq _ _ _ _ (by omega)]
  have hpow : s1 ^ e % m = s2 ^ e % m := by
    rw [Nat.pow_mod, hcong, ← Nat.pow_mod]
  rw [hpow]

theorem C9_verify_residue_witness :
    verify_signature 0 2 5 1 = verify_signature 0 7 5 1 :=
  C9_verify_residue 0 1 5 2 7 (by norm_num) (by norm_num) (by norm_num)
    (by norm_num)

/-! ## The documented example key (modulus 902962279 = 15299 * 59021) -/

theorem concrete_pow (x : ℕ) :
    x ^ (278653459 * 291642999) ≡ x [MOD 902962279] := by
  have h := @pow_ed_mod 15299 59021 451443980 278653459 291642999
    (by norm_num) (by norm_num) (by norm_num)
    (by norm_num) (by norm_num) (by norm_num) x
  have hm : (15299 : ℕ) * 59021 = 902962279 := by norm_num
  rwa [hm] at h

theorem concrete_verify_sign (x : ℕ) :
    (x ^ 278653459 % 902962279) ^ 291642999 % 902962279 =
      x % 902962279 := by
  rw [← Nat.pow_mod, ← pow_mul]
  exact concrete_pow x

theorem concrete_sign_verify (x : ℕ) :
    (x ^ 291642999 % 902962279) ^ 278653459 % 902962279 =
      x % 902962279 := by
  rw [← Nat.pow_mod, ← pow_mul, mul_comm 291642999 278653459]
  exact concrete_pow x

/-- C7 counterexample: with the documented key pair and digest 0,
`sign_message` produces the signature 0, yet the distinct u32 value
902962279 (= the modulus, congruent to 0 modulo the modulus) also
verifies, refuting "every u32 signature value other than s is
rejected". -/
theorem C7_counterexample :
    sign_message 0 902962279 278653459 = some 0 ∧
      verify_signature 0 902962279 902962279 291642999 = some true ∧
      (902962279 : ℕ) ≠ 0 ∧ (902962279 : ℕ) < 2 ^ 32 := by
  refine ⟨?_, ?_, by norm_num, by norm_num⟩
  · have h0 : (0 : ℕ) ^ 278653459 = 0 := zero_pow (by norm_num)
    rw [sign_message, raise_power_modulo_eq _ _ _ (by norm_num), h0,
      Nat.zero_mod]
  · have hz : (902962279 : ℕ) ^ 291642999 % 902962279 = 0 :=
      pow_self_mod 902962279 291642999 (by norm_num)
    rw [verify_signature_eq _ _ _ _ (by norm_num), hz]
    simp

/-- C7 (amended): with private key `(902962279, 278653459)` and public
key `(902962279, 291642999)`, signing digest `h` yields the fixed value
`s = h ^ 278653459 % 902962279`, verification accepts `s`, and a u32
candidate `s'` verifies exactly when `s' ≡ s (mod 902962279)`; every
`s'` with `s' % 902962279 ≠ s` is rejected. -/
theorem C7_sign_verify_concrete (h s' : ℕ) (_hh : h < 2 ^ 32)
    (_hs : s' < 2 ^ 32) :
    ∃ s, sign_message h 902962279 278653459 = some s ∧
      verify_signature h s 902962279 291642999 = some true ∧
      (verify_signature h s' 902962279 291642999 = some true ↔
        s' % 902962279 = s) := by
  refine ⟨h ^ 278653459 % 902962279, ?_, ?_, ?_⟩
  · rw [sign_message]
    exact raise_power_modulo_eq _ _ _ (by norm_num)
  · rw [verify_signature_eq _ _ _ _ (by norm_num),
      concrete_verify_sign h]
    simp
  · rw [verify_signature_eq _ _ _ _ (by norm_num)]
    constructor
    · intro hv
      have hb : s' ^ 291642999 % 902962279 = h % 902962279 := by
        have := Option.some.inj hv
        exact beq_iff_eq.mp this
      calc s' % 902962279
          = (s' ^ 291642999 % 902962279) ^ 278653459 % 902962279 :=
            (concrete_sign_verify s').symm
        _ = (h % 902962279) ^ 278653459 % 902962279 := by rw [hb]
        _ = h ^ 278653459 % 902962279 := by rw [← Nat.pow_mod]
    · intro hs
      have hfwd : s' ^ 291642999 % 902962279 = h % 902962279 := by
        calc s' ^ 291642999 % 902962279
            = (s' % 902962279) ^ 291642999 % 902962279 := by
              rw [Nat.pow_mod]
          _ = (h ^ 278653459 % 902962279) ^ 291642999 % 902962279 := by
              rw [hs]
          _ = h % 902962279 := concrete_verify_sign h
      rw [hfwd]
      simp

theorem C7_sign_verify_concrete_witness :
    ∃ s, sign_message 0 902962279 278653459 = some s ∧
      verify_signature 0 s 902962279 291642999 = some true ∧
      (verify_signature 0 1 902962279 291642999 = some true ↔
        1 % 902962279 = s) :=
  C7_sign_verify_concrete 0 1 (by norm_num) (by norm_num)
